import Mathlib

/-!
# PPO-Lagrange core: shallow embedding and verification

Shallow embedding of the constrained-PPO core of the repository:
`src/agents/naive_lagrange.py` (NaiveLagrange multiplier module) and
`src/agents/ppolag.py` (PPOLagLoss.forward).  Tensors are modelled as
`List ℝ`, the TensorDict batch as a finite key/value map, and the dual
(Lagrange) parameter as a real number transformed by softplus.
-/

/-- `torch.nn.functional.softplus` on reals: `softplus x = log (1 + exp x)`.
This is the positivity map `proj` used in `NaiveLagrange.__init__` and
`PPOLagLoss.lagrangian`. -/
noncomputable def softplus (x : ℝ) : ℝ := Real.log (1 + Real.exp x)

/-- `tensordict.nn.inv_softplus` on reals: `log (clamp_min (expm1 y) 1e-6)`,
mirroring `bias.expm1().clamp_min(1e-6).log()`. -/
noncomputable def inv_softplus (y : ℝ) : ℝ := Real.log (max (Real.exp y - 1) 1e-6)

/-- `NaiveLagrange.get` / `PPOLagLoss.lagrangian`: the externally visible
multiplier value `proj(raw)` (detach is a no-op on the value). -/
noncomputable def lagrangianValue (raw : ℝ) : ℝ := softplus raw

/-- `NaiveLagrange.forward`: the dual loss
`-proj(raw) * avg_violation * cost_scale`. -/
noncomputable def naiveLagrangeLoss (raw avgViolation costScale : ℝ) : ℝ :=
  -(softplus raw) * avgViolation * costScale

/-- 1 + exp x is positive. -/
lemma one_add_exp_pos (x : ℝ) : 0 < 1 + Real.exp x := by
  positivity

/-- softplus is positive everywhere: `1 + exp x > 1` so its log is > 0. -/
lemma softplus_pos (x : ℝ) : 0 < softplus x := by
  have h : 1 < 1 + Real.exp x := by
    have := Real.exp_pos x
    linarith
  exact Real.log_pos h

/-- softplus is monotone. -/
lemma softplus_mono {a b : ℝ} (hab : a ≤ b) : softplus a ≤ softplus b := by
  unfold softplus
  have h1 : (0:ℝ) < 1 + Real.exp a := one_add_exp_pos a
  have h2 : 1 + Real.exp a ≤ 1 + Real.exp b := by
    have := Real.exp_le_exp.mpr hab
    linarith
  exact Real.log_le_log h1 h2

/-- C4: For every finite value of the raw multiplier parameter, the
externally visible multiplier value returned by the Lagrange module
(`proj(raw) = softplus(raw)`, as in `NaiveLagrange.get` and
`PPOLagLoss.lagrangian`) is strictly positive. -/
theorem lagrangian_value_strictly_positive (raw : ℝ) :
    0 < lagrangianValue raw :=
  softplus_pos raw

/-- C5: For every configured initial multiplier value `v > 0`, the multiplier
value immediately after construction, `softplus (inv_softplus v)`, is within
`1e-6` of `v`; and it equals `v` exactly as soon as `v ≥ log (1 + 1e-6)`
(the round trip is exact whenever the `clamp_min (1e-6)` inside
`inv_softplus` is inactive). -/
theorem initial_lagrangian_round_trip (v : ℝ) (hv : 0 < v) :
    |lagrangianValue (inv_softplus v) - v| ≤ 1e-6 ∧
      (Real.log (1 + 1e-6) ≤ v → lagrangianValue (inv_softplus v) = v) := by
  have hkey : ∀ w : ℝ, Real.log (1 + 1e-6) ≤ w →
      lagrangianValue (inv_softplus w) = w := by
    intro w hw
    have hexp : (1:ℝ) + 1e-6 ≤ Real.exp w := by
      have h0 : (0:ℝ) < 1 + 1e-6 := by norm_num
      calc (1:ℝ) + 1e-6 = Real.exp (Real.log (1 + 1e-6)) := (Real.exp_log h0).symm
        _ ≤ Real.exp w := Real.exp_le_exp.mpr hw
    have hmax : max (Real.exp w - 1) 1e-6 = Real.exp w - 1 :=
      max_eq_left (by linarith)
    have hpos : (0:ℝ) < Real.exp w - 1 := by linarith
    unfold lagrangianValue softplus inv_softplus
    rw [hmax, Real.exp_log hpos]
    have : (1:ℝ) + (Real.exp w - 1) = Real.exp w := by ring
    rw [this, Real.log_exp]
  constructor
  · by_cases hcase : Real.log (1 + 1e-6) ≤ v
    · rw [hkey v hcase]
      simp
      norm_num
    · push_neg at hcase
      -- the clamp is active: the round trip lands exactly at log (1 + 1e-6)
      have hexp : Real.exp v - 1 < 1e-6 := by
        have h0 : (0:ℝ) < 1 + 1e-6 := by norm_num
        have := Real.exp_lt_exp.mpr hcase
        rw [Real.exp_log h0] at this
        linarith
      have hmax : max (Real.exp v - 1) 1e-6 = 1e-6 :=
        max_eq_right (le_of_lt hexp)
      have hval : lagrangianValue (inv_softplus v) = Real.log (1 + 1e-6) := by
        unfold lagrangianValue softplus inv_softplus
        rw [hmax, Real.exp_log (by norm_num : (0:ℝ) < 1e-6)]
      rw [hval]
      have hub : Real.log (1 + 1e-6) ≤ 1e-6 := by
        have := Real.log_le_sub_one_of_pos (by norm_num : (0:ℝ) < 1 + 1e-6)
        linarith
      have hlb : 0 < Real.log (1 + 1e-6) := Real.log_pos (by norm_num)
      rw [abs_le]
      constructor <;> linarith
  · exact hkey v

/-- Witness for C5 at `v = 1`. -/
theorem initial_lagrangian_round_trip_witness :
    (0:ℝ) < 1 ∧
      (|lagrangianValue (inv_softplus 1) - 1| ≤ 1e-6 ∧
        (Real.log (1 + 1e-6) ≤ 1 → lagrangianValue (inv_softplus 1) = 1)) :=
  ⟨by norm_num, initial_lagrangian_round_trip 1 (by norm_num)⟩

/-- The Lagrange-loss branch of `PPOLagLoss.forward` (lines 64-67): when
`train_lagrangian` is true it emits
`loss_lagrangian = -softplus(lag) * avg_violation.mean()`, otherwise it
emits nothing.  `avg_violation` is modelled as a list of reals and
`.mean()` as sum / length. -/
noncomputable def listMean (l : List ℝ) : ℝ := l.sum / l.length

/-- The conditional `loss_lagrangian` output of `PPOLagLoss.forward`. -/
noncomputable def lagLossOut (trainLagrangian : Bool) (raw : ℝ)
    (avgViolation : List ℝ) : Option ℝ :=
  if trainLagrangian then some (-(softplus raw) * listMean avgViolation)
  else none

/-- Counterexample for C2: with configured `cost_scale = 2`, raw parameter 0
and mean violation 1, the loss emitted by `PPOLagLoss.forward` is
`-softplus 0 * 1`, not `-softplus 0 * 1 * 2` as the claim's formula with the
scale factor would require: the forward pass applies no `cost_scale`. -/
theorem lagrange_loss_no_cost_scale_cex :
    lagLossOut true 0 [1] ≠ some (naiveLagrangeLoss 0 (listMean [1]) 2) := by
  unfold lagLossOut naiveLagrangeLoss listMean
  simp only [if_pos]
  intro h
  have h2 : -(softplus 0) * ((1:ℝ) / 1) = -(softplus 0) * (1 / 1) * 2 := by
    simpa using h
  have hpos := softplus_pos 0
  nlinarith

/-- C2 (amended): whenever a dual update is requested,
`PPOLagLoss.forward` emits the Lagrange loss
`-proj(raw) * mean(avg_violation)` — the Naive-Lagrange loss at
`cost_scale = 1`, with no configurable scale factor applied; when no dual
update is requested, no Lagrange loss is emitted. -/
theorem lagrange_loss_emission (raw : ℝ) (avgViolation : List ℝ) :
    lagLossOut true raw avgViolation =
        some (naiveLagrangeLoss raw (listMean avgViolation) 1) ∧
      lagLossOut false raw avgViolation = none := by
  unfold lagLossOut naiveLagrangeLoss
  constructor
  · simp only [if_pos]
    ring_nf
  · rfl

/-- Logistic sigmoid, the derivative of softplus. -/
noncomputable def sigmoidR (x : ℝ) : ℝ := Real.exp x / (1 + Real.exp x)

/-- The dual loss `-softplus(raw) * v * cs` has derivative
`-sigmoid(raw) * v * cs` in the raw parameter: gradient descent on it moves
`raw` by `+lr * sigmoid(raw) * v * cs`. -/
lemma dualLoss_hasDerivAt (raw v cs : ℝ) :
    HasDerivAt (fun x => naiveLagrangeLoss x v cs)
      (-(sigmoidR raw) * v * cs) raw := by
  have h1 : HasDerivAt (fun x : ℝ => 1 + Real.exp x) (Real.exp raw) raw :=
    (Real.hasDerivAt_exp raw).const_add 1
  have hne : (1:ℝ) + Real.exp raw ≠ 0 := ne_of_gt (one_add_exp_pos raw)
  have h2 : HasDerivAt (fun x : ℝ => Real.log (1 + Real.exp x))
      (Real.exp raw / (1 + Real.exp raw)) raw := h1.log hne
  have h3 := ((h2.neg.mul_const v).mul_const cs)
  have heq : ∀ x : ℝ, -(Real.log (1 + Real.exp x)) * v * cs =
      naiveLagrangeLoss x v cs := by
    intro x
    unfold naiveLagrangeLoss softplus
    ring
  have hval : -(Real.exp raw / (1 + Real.exp raw)) * v * cs =
      -(sigmoidR raw) * v * cs := by
    unfold sigmoidR
    ring
  rw [hval] at h3
  exact h3.congr_deriv rfl |>.congr_of_eventuallyEq
    (Filter.Eventually.of_forall fun x => (heq x).symm)

/-- C3: with positive learning rate and positive cost scale, one
gradient-descent step `raw - lr * g` of the raw parameter on the dual loss
`-softplus(raw) * v * cs` — where `g` is the derivative of that loss at
`raw` — does not decrease the multiplier `softplus(raw)` when the average
violation `v` is positive, and does not increase it when `v` is
negative. -/
theorem dual_ascent_monotone (lr raw v cs g : ℝ) (hlr : 0 < lr)
    (hcs : 0 < cs)
    (hg : HasDerivAt (fun x => naiveLagrangeLoss x v cs) g raw) :
    (0 < v → softplus raw ≤ softplus (raw - lr * g)) ∧
      (v < 0 → softplus (raw - lr * g) ≤ softplus raw) := by
  have hgeq : g = -(sigmoidR raw) * v * cs :=
    hg.unique (dualLoss_hasDerivAt raw v cs)
  have hsig : 0 < sigmoidR raw :=
    div_pos (Real.exp_pos raw) (one_add_exp_pos raw)
  rw [hgeq]
  constructor
  · intro hv
    apply softplus_mono
    nlinarith [mul_pos (mul_pos (mul_pos hlr hsig) hv) hcs]
  · intro hv
    apply softplus_mono
    nlinarith [mul_pos (mul_pos (mul_pos hlr hsig) (neg_pos.mpr hv)) hcs]

/-- Witness for C3 at `lr = 1`, `raw = 0`, `v = 1`, `cs = 1`, with the
derivative supplied explicitly. -/
theorem dual_ascent_monotone_witness :
    (0:ℝ) < 1 ∧ (0:ℝ) < 1 ∧
      HasDerivAt (fun x => naiveLagrangeLoss x 1 1)
        (-(sigmoidR 0) * 1 * 1) 0 ∧
      (((0:ℝ) < 1 →
          softplus 0 ≤ softplus (0 - 1 * (-(sigmoidR 0) * 1 * 1))) ∧
        ((1:ℝ) < 0 →
          softplus (0 - 1 * (-(sigmoidR 0) * 1 * 1)) ≤ softplus 0)) :=
  ⟨by norm_num, by norm_num, dualLoss_hasDerivAt 0 1 1,
    dual_ascent_monotone 1 0 1 1 (-(sigmoidR 0) * 1 * 1) (by norm_num)
      (by norm_num) (dualLoss_hasDerivAt 0 1 1)⟩

/-- `torch.Tensor.std()` with the default unbiased estimator: sample
variance divides by `n - 1`. -/
noncomputable def sampleVar (l : List ℝ) : ℝ :=
  (l.map (fun x => (x - listMean l) ^ 2)).sum / ((l.length : ℝ) - 1)

/-- Sample standard deviation, `tensor.std()`. -/
noncomputable def sampleStd (l : List ℝ) : ℝ := Real.sqrt (sampleVar l)

/-- Advantage normalization from `PPOLagLoss.forward` (lines 87-95): when
the tensor has more than one element, replace it by
`(adv - adv.mean()) / adv.std().clamp_min(1e-6)`; otherwise leave it
unchanged. -/
noncomputable def normalizeAdv (l : List ℝ) : List ℝ :=
  if 1 < l.length then
    l.map (fun x => (x - listMean l) / max (sampleStd l) 1e-6)
  else l

/-- Sum of centered, rescaled values. -/
lemma sum_map_sub_div (l : List ℝ) (m c : ℝ) :
    (l.map (fun x => (x - m) / c)).sum = (l.sum - l.length * m) / c := by
  induction l with
  | nil => simp
  | cons a t ih =>
      rw [List.map_cons, List.sum_cons, ih, List.sum_cons, List.length_cons]
      push_cast
      ring

/-- Sum of squared centered, rescaled values. -/
lemma sum_map_sub_div_sq (l : List ℝ) (m c : ℝ) :
    (l.map (fun x => ((x - m) / c) ^ 2)).sum =
      (l.map (fun x => (x - m) ^ 2)).sum / c ^ 2 := by
  induction l with
  | nil => simp
  | cons a t ih =>
      rw [List.map_cons, List.sum_cons, ih, List.map_cons, List.sum_cons]
      ring

/-- C6: with normalization enabled, a batch of more than one element whose
sample standard deviation is at least the `1e-6` floor is replaced by a
batch of exact mean 0 and exact sample standard deviation 1, while a batch
of exactly one element is left unchanged. -/
theorem advantage_normalization (l l' : List ℝ) (hlen : 1 < l.length)
    (hstd : (1e-6 : ℝ) ≤ sampleStd l) (hone : l'.length = 1) :
    listMean (normalizeAdv l) = 0 ∧ sampleStd (normalizeAdv l) = 1 ∧
      normalizeAdv l' = l' := by
  have hs : max (sampleStd l) 1e-6 = sampleStd l := max_eq_left hstd
  have hnorm : normalizeAdv l =
      l.map (fun x => (x - listMean l) / sampleStd l) := by
    unfold normalizeAdv
    rw [if_pos hlen, hs]
  have hn0 : (l.length : ℝ) ≠ 0 := by
    have h : 0 < l.length := lt_trans one_pos hlen
    exact_mod_cast Nat.pos_iff_ne_zero.mp h
  have hstdpos : 0 < sampleStd l := lt_of_lt_of_le (by norm_num) hstd
  have hvarpos : 0 < sampleVar l := by
    have := hstdpos
    unfold sampleStd at this
    exact (Real.sqrt_pos).mp this
  have hs2 : sampleStd l ^ 2 = sampleVar l := by
    unfold sampleStd
    exact Real.sq_sqrt hvarpos.le
  have hmean : listMean (normalizeAdv l) = 0 := by
    rw [hnorm]
    unfold listMean
    rw [List.length_map, sum_map_sub_div]
    have hz : l.sum - (l.length : ℝ) * (l.sum / (l.length : ℝ)) = 0 := by
      field_simp
    rw [hz, zero_div, zero_div]
  refine ⟨hmean, ?_, ?_⟩
  · have hvar' : sampleVar (normalizeAdv l) = sampleVar l / sampleStd l ^ 2 := by
      unfold sampleVar
      rw [hmean, hnorm, List.map_map, List.length_map]
      have hcomp : ((fun x : ℝ => (x - 0) ^ 2) ∘
          fun x => (x - listMean l) / sampleStd l) =
          fun x => ((x - listMean l) / sampleStd l) ^ 2 := by
        funext x
        simp
      rw [hcomp, sum_map_sub_div_sq]
      ring
    unfold sampleStd
    rw [hvar', hs2, div_self (ne_of_gt hvarpos), Real.sqrt_one]
  · unfold normalizeAdv
    rw [if_neg (by omega)]

/-- Witness for C6 on the batch `[1, 0, -1]` (std exactly 1) and the
singleton batch `[5]`. -/
theorem advantage_normalization_witness :
    1 < [(1:ℝ), 0, -1].length ∧ (1e-6 : ℝ) ≤ sampleStd [(1:ℝ), 0, -1] ∧
      [(5:ℝ)].length = 1 ∧
      (listMean (normalizeAdv [(1:ℝ), 0, -1]) = 0 ∧
        sampleStd (normalizeAdv [(1:ℝ), 0, -1]) = 1 ∧
        normalizeAdv [(5:ℝ)] = [(5:ℝ)]) := by
  have hstd : (1e-6 : ℝ) ≤ sampleStd [(1:ℝ), 0, -1] := by
    have h1 : sampleStd [(1:ℝ), 0, -1] = 1 := by
      unfold sampleStd sampleVar listMean
      norm_num
    rw [h1]
    norm_num
  exact ⟨by norm_num, hstd, by norm_num,
    advantage_normalization [(1:ℝ), 0, -1] [(5:ℝ)] (by norm_num) hstd
      (by norm_num)⟩

/-- `torch.clamp(x, lo, hi) = min(max(x, lo), hi)`, as applied to the
log-weight by `log_weight.clamp(*self._clip_bounds)` (the clip bounds live
in log space: ratio bounds `low < 1 < high` correspond to
`lo = log low < 0 < log high = hi`). -/
noncomputable def clampR (x lo hi : ℝ) : ℝ := min (max x lo) hi

/-- Unclipped elementwise gain `exp(log_weight) * advantage` (line 101 of
`ppolag.py`, also the cost gain of line 104). -/
noncomputable def uGain (w a : ℝ) : ℝ := Real.exp w * a

/-- Clipped elementwise gain `exp(clamp(log_weight)) * advantage`
(line 102 of `ppolag.py`). -/
noncomputable def cGainScalar (lo hi w a : ℝ) : ℝ :=
  Real.exp (clampR w lo hi) * a

/-- `r_gain1 = log_weight.exp() * r_advantage`. -/
noncomputable def rGain1 (lw radv : List ℝ) : List ℝ :=
  List.zipWith uGain lw radv

/-- `r_gain2 = log_weight.clamp(*clip_bounds).exp() * r_advantage`. -/
noncomputable def rGain2 (lo hi : ℝ) (lw radv : List ℝ) : List ℝ :=
  List.zipWith (cGainScalar lo hi) lw radv

/-- `r_gain = torch.stack([r_gain1, r_gain2], -1).min(dim=-1)[0]`:
the elementwise minimum. -/
noncomputable def rGain (lo hi : ℝ) (lw radv : List ℝ) : List ℝ :=
  List.zipWith min (rGain1 lw radv) (rGain2 lo hi lw radv)

/-- `c_gain = log_weight.exp() * c_advantage`. -/
noncomputable def cGainList (lw cadv : List ℝ) : List ℝ :=
  List.zipWith uGain lw cadv

/-- `loss_pi = (-r_gain + lagrangian * c_gain).mean() / (1 + lagrangian)`
(line 106 of `ppolag.py`). -/
noncomputable def lossPi (lo hi lam : ℝ) (lw radv cadv : List ℝ) : ℝ :=
  listMean (List.zipWith (fun g c => -g + lam * c)
    (rGain lo hi lw radv) (cGainList lw cadv)) / (1 + lam)

/-- The actor loss as worded by the spec: the mean over elements of
`-(min(exp(w) * a, exp(clip(w)) * a)) + λ * (exp(w) * c)`, divided by
`1 + λ`. -/
noncomputable def specActorLoss (lo hi lam : ℝ) (lw radv cadv : List ℝ) : ℝ :=
  listMean ((lw.zip (radv.zip cadv)).map (fun p =>
    -(min (Real.exp p.1 * p.2.1) (Real.exp (min (max p.1 lo) hi) * p.2.1)) +
      lam * (Real.exp p.1 * p.2.2))) / (1 + lam)

/-- The zipWith chain of `ppolag.py` computes exactly the per-element
spec expression. -/
lemma gains_zip_eq (lo hi lam : ℝ) (lw radv cadv : List ℝ) :
    List.zipWith (fun g c => -g + lam * c)
        (rGain lo hi lw radv) (cGainList lw cadv) =
      (lw.zip (radv.zip cadv)).map (fun p =>
        -(min (Real.exp p.1 * p.2.1) (Real.exp (min (max p.1 lo) hi) * p.2.1)) +
          lam * (Real.exp p.1 * p.2.2)) := by
  induction lw generalizing radv cadv with
  | nil => simp [rGain, rGain1, rGain2, cGainList]
  | cons w tw ih =>
      cases radv with
      | nil => simp [rGain, rGain1, rGain2, cGainList]
      | cons a ta =>
          cases cadv with
          | nil => simp [rGain, rGain1, rGain2, cGainList]
          | cons c tc =>
              simpa [rGain, rGain1, rGain2, cGainList, uGain, cGainScalar,
                clampR] using ih ta tc

/-- C1: for equal-shape batches the emitted actor loss equals the spec's
formula — mean of `(-reward_surrogate_gain + λ * cost_gain)` divided by
`(1 + λ)` — and on the concrete batch with reward-advantage
`[1, -1, 2, -2]`, cost-advantage `[0, 0, 0, 0]`, log-weight `[0, 0, 0, 0]`
and `λ = 0` the actor loss is `0` (the clip bounds contain `0` in log
space, i.e. the ratio `1` is inside them). -/
theorem actor_loss_formula (lo hi lam : ℝ) (lw radv cadv : List ℝ)
    (hlo : lo ≤ 0) (hhi : 0 ≤ hi)
    (h1 : lw.length = radv.length) (h2 : lw.length = cadv.length) :
    lossPi lo hi lam lw radv cadv = specActorLoss lo hi lam lw radv cadv ∧
      lossPi lo hi 0 [0, 0, 0, 0] [1, -1, 2, -2] [0, 0, 0, 0] = 0 := by
  constructor
  · unfold lossPi specActorLoss
    rw [gains_zip_eq]
  · have hc : min (max (0:ℝ) lo) hi = 0 := by
      rw [max_eq_left hlo, min_eq_left hhi]
    unfold lossPi listMean rGain rGain1 rGain2 cGainList uGain cGainScalar
      clampR
    simp [hc]

/-- Witness for C1 with clip bounds `[-1, 1]` and a singleton batch. -/
theorem actor_loss_formula_witness :
    ((-1:ℝ) ≤ 0 ∧ (0:ℝ) ≤ 1 ∧ [(0:ℝ)].length = [(1:ℝ)].length ∧
        [(0:ℝ)].length = [(2:ℝ)].length) ∧
      (lossPi (-1) 1 3 [0] [1] [2] = specActorLoss (-1) 1 3 [0] [1] [2] ∧
        lossPi (-1) 1 0 [0, 0, 0, 0] [1, -1, 2, -2] [0, 0, 0, 0] = 0) :=
  ⟨⟨by norm_num, by norm_num, by simp, by simp⟩,
    actor_loss_formula (-1) 1 3 [0] [1] [2] (by norm_num) (by norm_num)
      (by simp) (by simp)⟩

/-- Counterexample for C7: with log-space clip bounds `lo = -1 < 0 < 1 = hi`
(ratio bounds `exp (-1) < 1 < exp 1`), log-weight `-2` (below the lower
bound) and advantage `1 ≥ 0`, clipping RAISES the gain: the clipped gain
`exp (-1) * 1` is strictly greater than the unclipped gain `exp (-2) * 1`,
refuting "clipped ≤ unclipped whenever advantage ≥ 0". -/
theorem ppo_clip_pessimism_cex :
    ((-1:ℝ) < 0 ∧ (0:ℝ) < 1 ∧ (0:ℝ) ≤ 1) ∧
      ¬ cGainScalar (-1) 1 (-2) 1 ≤ uGain (-2) 1 := by
  refine ⟨⟨by norm_num, by norm_num, by norm_num⟩, ?_⟩
  unfold cGainScalar uGain clampR
  have hc : min (max (-2:ℝ) (-1)) 1 = -1 := by norm_num
  rw [hc]
  simp only [mul_one, not_le]
  exact Real.exp_lt_exp.mpr (by norm_num)

/-- C7 (amended): for clip bounds `lo < 0 < hi` in log space and every
elementwise pair whose log-weight is at least the lower bound `lo`, the
clipped gain is ≤ the unclipped gain when the advantage is ≥ 0 and ≥ it
when the advantage is < 0. -/
theorem ppo_clip_pessimism (lo hi w a : ℝ) (hlo : lo < 0) (hhi : 0 < hi)
    (hw : lo ≤ w) :
    (0 ≤ a → cGainScalar lo hi w a ≤ uGain w a) ∧
      (a < 0 → uGain w a ≤ cGainScalar lo hi w a) := by
  have hclamp : clampR w lo hi ≤ w := by
    unfold clampR
    rw [max_eq_left hw]
    exact min_le_left w hi
  have hexp : Real.exp (clampR w lo hi) ≤ Real.exp w :=
    Real.exp_le_exp.mpr hclamp
  constructor
  · intro ha
    unfold cGainScalar uGain
    exact mul_le_mul_of_nonneg_right hexp ha
  · intro ha
    unfold cGainScalar uGain
    exact mul_le_mul_of_nonpos_right hexp (le_of_lt ha)

/-- Witness for C7 (amended) at `lo = -1`, `hi = 1`, `w = 0`, `a = 1`. -/
theorem ppo_clip_pessimism_witness :
    ((-1:ℝ) < 0 ∧ (0:ℝ) < 1 ∧ (-1:ℝ) ≤ 0) ∧
      (((0:ℝ) ≤ 1 → cGainScalar (-1) 1 0 1 ≤ uGain 0 1) ∧
        ((1:ℝ) < 0 → uGain 0 1 ≤ cGainScalar (-1) 1 0 1)) :=
  ⟨⟨by norm_num, by norm_num, by norm_num⟩,
    ppo_clip_pessimism (-1) 1 0 1 (by norm_num) (by norm_num) (by norm_num)⟩

/-- The actor-loss stage of `PPOLagLoss.forward` guarded by the shape
assertion of line 99: `assert c_advantage.shape == log_weight.shape and
r_advantage.shape == log_weight.shape`.  A failed assertion raises, so the
call returns no output at all; the gains are never computed and no
broadcasting is attempted. -/
noncomputable def forwardActor (lo hi lam : ℝ)
    (lw radv cadv : List ℝ) : Except String ℝ :=
  if cadv.length = lw.length ∧ radv.length = lw.length then
    Except.ok (lossPi lo hi lam lw radv cadv)
  else Except.error "shape mismatch"

/-- C8: whenever the three tensors do not all share one shape, the loss
computation fails with the shape-mismatch error and returns no output,
partial or otherwise. -/
theorem shape_mismatch_aborts (lo hi lam : ℝ) (lw radv cadv : List ℝ)
    (h : ¬(cadv.length = lw.length ∧ radv.length = lw.length)) :
    forwardActor lo hi lam lw radv cadv = Except.error "shape mismatch" ∧
      ∀ y, forwardActor lo hi lam lw radv cadv ≠ Except.ok y := by
  unfold forwardActor
  rw [if_neg h]
  exact ⟨rfl, fun y h' => Except.noConfusion h'⟩

/-- Witness for C8: log-weight of shape `(4,)` and cost-advantage of
shape `(3,)`. -/
theorem shape_mismatch_aborts_witness :
    ¬(([(1:ℝ), 1, 2].length = [(0:ℝ), 0, 0, 0].length) ∧
        ([(0:ℝ), 0, 0, 0].length = [(0:ℝ), 0, 0, 0].length)) ∧
      (forwardActor (-1) 1 0 [(0:ℝ), 0, 0, 0] [(0:ℝ), 0, 0, 0] [(1:ℝ), 1, 2] =
          Except.error "shape mismatch" ∧
        ∀ y, forwardActor (-1) 1 0 [(0:ℝ), 0, 0, 0] [(0:ℝ), 0, 0, 0]
          [(1:ℝ), 1, 2] ≠ Except.ok y) :=
  ⟨by simp, shape_mismatch_aborts (-1) 1 0 [(0:ℝ), 0, 0, 0] [(0:ℝ), 0, 0, 0]
    [(1:ℝ), 1, 2] (by simp)⟩

/-- Keys of the batch TensorDict that `PPOLagLoss.forward` touches in its
estimation phase (lines 61, 71-85): the observation fields, the two-channel
`('next', 'reward')` tensor, and the advantage keys written by the two
value estimators. -/
inductive TKey where
  | obs
  | reward
  | r_advantage
  | c_advantage
  deriving DecidableEq

/-- A TensorDict value: a single-channel tensor or a two-channel
(reward, cost) tensor. -/
inductive TVal where
  | t1 : List ℝ → TVal
  | t2 : List (ℝ × ℝ) → TVal

/-- A TensorDict, keyed container of optional tensors. -/
def TDict : Type := TKey → Option TVal

/-- `td.set(key, value)`. -/
def tdSet (td : TDict) (k : TKey) (v : TVal) : TDict :=
  fun k' => if k' = k then some v else td k'

/-- Read the two-channel `('next', 'reward')` tensor of a batch. -/
def getReward2 (td : TDict) : List (ℝ × ℝ) :=
  match td TKey.reward with
  | some (TVal.t2 l) => l
  | _ => []

/-- Running a value estimator on a TensorDict, as in
`self.r_value_estimator(tmp_td, params=..., target_params=...)`: the
estimator reads the observation fields and the currently exposed reward
tensor, is given a live and a target parameter snapshot, and writes its
advantage output under its advantage key.  The estimator body `f` is
abstract (the estimators are external collaborators). -/
def runEstimator (advKey : TKey)
    (f : ℝ → ℝ → Option TVal → Option TVal → TVal)
    (p tp : ℝ) (td : TDict) : TDict :=
  tdSet td advKey (f p tp (td TKey.obs) (td TKey.reward))

/-- The estimation phase of `PPOLagLoss.forward` (lines 61, 71-82), exactly
as written: clone the batch into one scratch dict `tmp_td`, expose reward
channel 0 and run the reward estimator with the reward-critic live/target
parameters, then overwrite the SAME scratch dict's reward with channel 1
and run the cost estimator with the cost-critic live/target parameters. -/
def estPhase (rf cf : ℝ → ℝ → Option TVal → Option TVal → TVal)
    (cp tcp sp tsp : ℝ) (td : TDict) : TDict :=
  let tmp := td
  let tmp := tdSet tmp TKey.reward (TVal.t1 ((getReward2 td).map Prod.fst))
  let tmp := runEstimator TKey.r_advantage rf cp tcp tmp
  let tmp := tdSet tmp TKey.reward (TVal.t1 ((getReward2 td).map Prod.snd))
  let tmp := runEstimator TKey.c_advantage cf sp tsp tmp
  tmp

/-- The estimation phase with the two estimator blocks run in the opposite
order (cost estimator first). -/
def estPhaseSwapped (rf cf : ℝ → ℝ → Option TVal → Option TVal → TVal)
    (cp tcp sp tsp : ℝ) (td : TDict) : TDict :=
  let tmp := td
  let tmp := tdSet tmp TKey.reward (TVal.t1 ((getReward2 td).map Prod.snd))
  let tmp := runEstimator TKey.c_advantage cf sp tsp tmp
  let tmp := tdSet tmp TKey.reward (TVal.t1 ((getReward2 td).map Prod.fst))
  let tmp := runEstimator TKey.r_advantage rf cp tcp tmp
  tmp

/-- The scratch dict at the moment the cost estimator is invoked: the
single shared `tmp_td` after the reward estimator has run and the reward
key has been overwritten with channel 1. -/
def cEstInput (rf : ℝ → ℝ → Option TVal → Option TVal → TVal)
    (cp tcp : ℝ) (td : TDict) : TDict :=
  tdSet
    (runEstimator TKey.r_advantage rf cp tcp
      (tdSet td TKey.reward (TVal.t1 ((getReward2 td).map Prod.fst))))
    TKey.reward (TVal.t1 ((getReward2 td).map Prod.snd))

/-- A concrete one-transition batch: observation `[0]`, two-channel reward
`[(1, 2)]`, no advantage keys yet. -/
def tdExample : TDict := fun k =>
  match k with
  | TKey.obs => some (TVal.t1 [0])
  | TKey.reward => some (TVal.t2 [(1, 2)])
  | _ => none

/-- A concrete reward-estimator body that emits advantage `[42]`. -/
def rfExample : ℝ → ℝ → Option TVal → Option TVal → TVal :=
  fun _ _ _ _ => TVal.t1 [42]

/-- Counterexample for C9: on the concrete batch `tdExample`, the dict
handed to the cost estimator already contains the reward estimator's
output under `r_advantage`, whereas an independent copy of the batch
differing only in the exposed reward channel would not: the two estimators
run on one shared scratch copy, not on independent copies. -/
theorem estimators_share_scratch_cex :
    cEstInput rfExample 0 0 tdExample TKey.r_advantage ≠
      (tdSet tdExample TKey.reward
        (TVal.t1 ((getReward2 tdExample).map Prod.snd)))
        TKey.r_advantage := by
  simp [cEstInput, runEstimator, tdSet, tdExample, rfExample]

/-- C9 (amended): the reward estimator is run with reward channel 0
exposed and the reward-critic live/target parameters, the cost estimator
with channel 1 and the cost-critic live/target parameters — on one shared
scratch copy, sequentially.  Each advantage output depends only on the
original batch's observations and its own reward channel, so running the
two estimator blocks in either order yields identical advantage outputs. -/
theorem estimator_channel_wiring
    (rf cf : ℝ → ℝ → Option TVal → Option TVal → TVal)
    (cp tcp sp tsp : ℝ) (td : TDict) :
    estPhase rf cf cp tcp sp tsp td TKey.r_advantage =
        some (rf cp tcp (td TKey.obs)
          (some (TVal.t1 ((getReward2 td).map Prod.fst)))) ∧
      estPhase rf cf cp tcp sp tsp td TKey.c_advantage =
        some (cf sp tsp (td TKey.obs)
          (some (TVal.t1 ((getReward2 td).map Prod.snd)))) ∧
      estPhase rf cf cp tcp sp tsp td TKey.r_advantage =
        estPhaseSwapped rf cf cp tcp sp tsp td TKey.r_advantage ∧
      estPhase rf cf cp tcp sp tsp td TKey.c_advantage =
        estPhaseSwapped rf cf cp tcp sp tsp td TKey.c_advantage := by
  refine ⟨?_, ?_, ?_, ?_⟩ <;>
    simp [estPhase, estPhaseSwapped, runEstimator, tdSet]

/-- The effect of `PPOLagLoss.forward` on batch dictionaries: the first
component is the caller's batch threaded through the call (the source only
ever reads `tdict` — lines 61, 66, 71, 77 — and never sets a key on it),
the second is the scratch clone `tmp_td` that receives every write. -/
def forwardBatchEffect (rf cf : ℝ → ℝ → Option TVal → Option TVal → TVal)
    (cp tcp sp tsp : ℝ) (td : TDict) : TDict × TDict :=
  (td, estPhase rf cf cp tcp sp tsp td)

/-- C10: after a successful call, every original key of the caller's input
batch is unchanged — in particular the two-channel reward tensor — while
the intermediate writes (channel selection, estimator outputs) landed on
the internal scratch copy, whose reward key ends up holding the cost
channel. -/
theorem caller_batch_unmutated
    (rf cf : ℝ → ℝ → Option TVal → Option TVal → TVal)
    (cp tcp sp tsp : ℝ) (td : TDict) :
    (∀ k, (forwardBatchEffect rf cf cp tcp sp tsp td).1 k = td k) ∧
      (forwardBatchEffect rf cf cp tcp sp tsp td).1 TKey.reward =
        td TKey.reward ∧
      (forwardBatchEffect rf cf cp tcp sp tsp td).2 TKey.reward =
        some (TVal.t1 ((getReward2 td).map Prod.snd)) := by
  refine ⟨fun k => rfl, rfl, ?_⟩
  simp [forwardBatchEffect, estPhase, runEstimator, tdSet]
